import Mathlib

/-!
Verification of the Image Post Composition Engine of the blackwiremedia-bot
repository against its natural-language specification.

The JavaScript source (services/postService.js and services/socialService.js)
is shallowly embedded here: pure fragments become Lean functions over
`List Char` / `ℚ` / `ℕ`, the canvas text-measurement backend and the JPEG
encoder are oracles passed as function parameters, and fallible code returns
`Except` / `Option`.
-/

namespace BlackWire

/-! ## ThemeSelector (createPostImages, line 740)

Source: `let themeColor = vuln.cvss_score <= 9 ? 'blue' : vuln.cvss_score <= 9.5 ? 'orange' : 'red';`
JavaScript numbers are modelled as rationals; the comparison chain is verbatim. -/

/-- Theme colour chosen from a CVSS score, exactly the conditional chain of
`createPostImages`. -/
def themeColorOf (cvss_score : ℚ) : String :=
  if cvss_score ≤ 9 then "blue" else if cvss_score ≤ 9.5 then "orange" else "red"

/-! ## SizeConstrainedCompressor (socialService.js compressImage, lines 308-322)

Source:
```
let buffer = fs.readFileSync(filePath);
if (buffer.length <= maxSize) return buffer;
let quality = 90;
while (buffer.length > maxSize && quality > 40) {
    buffer = await sharp(filePath).jpeg({ quality }).toBuffer();
    quality -= 10;
}
return buffer;
```
The file contents are the `input` byte list; the JPEG encoder
`sharp(filePath).jpeg({quality}).toBuffer()` is the oracle `enc` mapping a
quality to the bytes of the re-encoded original image. -/

/-- While-loop of `compressImage`: re-encode the original image at the current
quality while the working buffer is over budget and quality exceeds 40. -/
def compressLoop (enc : ℕ → List ℕ) (maxSize : ℕ) (buffer : List ℕ) (quality : ℕ) :
    List ℕ :=
  if h : maxSize < buffer.length ∧ 40 < quality then
    compressLoop enc maxSize (enc quality) (quality - 10)
  else buffer
termination_by quality
decreasing_by omega

/-- The `compressImage` method: return the raw bytes unchanged when they fit,
otherwise run the re-encoding loop starting at quality 90. -/
def compressImage (input : List ℕ) (maxSize : ℕ) (enc : ℕ → List ℕ) : List ℕ :=
  if input.length ≤ maxSize then input
  else compressLoop enc maxSize input 90

/-- Qualities the loop may attempt, in attempt order. -/
def compressQualities : List ℕ := [90, 80, 70, 60, 50]

/-- Qualities actually attempted by the loop on an over-budget input: all of
them up to and including the first whose re-encode fits, or all five when none
fits. -/
def attemptedQualities (maxSize : ℕ) (enc : ℕ → List ℕ) : List ℕ :=
  match compressQualities.find? (fun q => (enc q).length ≤ maxSize) with
  | some q => compressQualities.takeWhile (fun r => q ≤ r)
  | none => compressQualities

/-! ## MarkupParser (parseMarkdown, lines 594-606)

Source:
```
const regex = /(\*\*\*.*?\*\*\*|\*\*.*?\*\*|\*.*?\*|[^\*]+)/g;
const segments = [];
let match;
while ((match = regex.exec(line)) !== null) {
    let txt = match[0], style = 'regular';
    if (/^\*\*\*.*\*\*\*$/.test(txt)) { style = 'bolditalic'; txt = txt.slice(3, -3); }
    else if (/^\*\*.*\*\*$/.test(txt)) { style = 'bold'; txt = txt.slice(2, -2); }
    else if (/^\*.*\*$/.test(txt)) { style = 'italic'; txt = txt.slice(1, -1); }
    segments.push({ text: txt, style });
}
return segments;
```
The global `exec` loop yields the leftmost match at or after the current
position, trying the four alternatives in order at each candidate position;
dot matches any character except a newline, and the lazy quantifier takes the
shortest closing. A position where no alternative matches (a lone `*` with no
closer) is skipped without producing a segment. -/

/-- One parsed segment: a run of text and its style string. -/
structure MSeg where
  text : List Char
  style : String
deriving DecidableEq, Repr

/-- Run of `k` asterisk characters. -/
def stars (k : ℕ) : List Char := List.replicate k '*'

/-- Whether the list begins with `k` asterisks. -/
def startsWithStars (k : ℕ) (s : List Char) : Bool := s.take k = stars k

/-- Lazy search for the closing `k`-star run: returns the shortest
newline-free content together with the remainder after the closing stars. -/
def lazyClose (k : ℕ) : List Char → Option (List Char × List Char)
  | [] => none
  | c :: cs =>
    if startsWithStars k (c :: cs) then some ([], (c :: cs).drop k)
    else if c = '\n' then none
    else
      match lazyClose k cs with
      | some (x, r) => some (c :: x, r)
      | none => none

/-- Match of one delimited alternative (`k` = 3, 2 or 1 stars) at the start of
the input: returns the whole matched token and the remainder. -/
def tryDelim (k : ℕ) (s : List Char) : Option (List Char × List Char) :=
  if startsWithStars k s then
    match lazyClose k (s.drop k) with
    | some (x, rest) => some (stars k ++ x ++ stars k, rest)
    | none => none
  else none

/-- Greedy match of the `[^*]+` alternative: the maximal asterisk-free run and
the remainder. -/
def takeNonStar : List Char → List Char × List Char
  | [] => ([], [])
  | c :: cs =>
    if c = '*' then ([], c :: cs)
    else
      let p := takeNonStar cs
      (c :: p.1, p.2)

/-- Classification of a matched token by the three anchored re-tests of the
source, strongest first, stripping the matched delimiters. -/
def classify (t : List Char) : MSeg :=
  if 6 ≤ t.length ∧ t.take 3 = stars 3 ∧ t.drop (t.length - 3) = stars 3 ∧
      ∀ c ∈ (t.drop 3).take (t.length - 6), c ≠ '\n' then
    ⟨(t.drop 3).take (t.length - 6), "bolditalic"⟩
  else if 4 ≤ t.length ∧ t.take 2 = stars 2 ∧ t.drop (t.length - 2) = stars 2 ∧
      ∀ c ∈ (t.drop 2).take (t.length - 4), c ≠ '\n' then
    ⟨(t.drop 2).take (t.length - 4), "bold"⟩
  else if 2 ≤ t.length ∧ t.take 1 = stars 1 ∧ t.drop (t.length - 1) = stars 1 ∧
      ∀ c ∈ (t.drop 1).take (t.length - 2), c ≠ '\n' then
    ⟨(t.drop 1).take (t.length - 2), "italic"⟩
  else ⟨t, "regular"⟩

/-- Fuelled body of the exec loop: at each position try the three delimited
alternatives in precedence order, then the asterisk-free run, and skip a lone
unmatched asterisk. Every step consumes at least one character, so fuel equal
to the input length suffices. -/
def parseMDFuel : ℕ → List Char → List MSeg
  | 0, _ => []
  | _ + 1, [] => []
  | fuel + 1, c :: cs =>
    match tryDelim 3 (c :: cs) with
    | some (tok, rest) => classify tok :: parseMDFuel fuel rest
    | none =>
      match tryDelim 2 (c :: cs) with
      | some (tok, rest) => classify tok :: parseMDFuel fuel rest
      | none =>
        match tryDelim 1 (c :: cs) with
        | some (tok, rest) => classify tok :: parseMDFuel fuel rest
        | none =>
          if c = '*' then parseMDFuel fuel cs
          else
            classify (takeNonStar (c :: cs)).1 ::
              parseMDFuel fuel (takeNonStar (c :: cs)).2

/-- The `parseMarkdown` method on a line of text. -/
def parseMarkdown (line : List Char) : List MSeg :=
  parseMDFuel line.length line

/-- Concatenation of the text fields of a segment list, in order. -/
def concatText (segments : List MSeg) : List Char :=
  (segments.map MSeg.text).flatten

/-- The input with every asterisk character removed. -/
def eraseStars (s : List Char) : List Char := s.filter (fun c => c ≠ '*')

/-! ## TextMetrics (measureTextWidth, lines 688-701)

Source walks the characters of the text, adding `fontSize * 1.2` for a
character with a pictograph asset and the canvas advance width otherwise.
The canvas metric under the regular font is the oracle `charW`; pictograph
existence on disk is the oracle `isEmoji`. -/

/-- Measured width of a run of text under the regular style. -/
def measureTextWidth (charW : Char → ℚ) (isEmoji : Char → Bool) (fontSize : ℚ)
    (text : List Char) : ℚ :=
  (text.map (fun c => if isEmoji c then fontSize * 1.2 else charW c)).sum

/-! ## TextLayoutEngine (splitTextIntoLines, lines 656-678)

Source:
```
const words = text.split(' ');
const lines = [];
let currentLine = [];
let currentWidth = 0;
for (const word of words) {
    const wordWidth = this.measureTextWidth(ctx, word, fontSize, 'regular');
    if (currentWidth + wordWidth > maxWidth && currentLine.length > 0) {
        lines.push(currentLine.join(' '));
        currentLine = [word];
        currentWidth = wordWidth;
    } else {
        currentLine.push(word);
        currentWidth += wordWidth + ctx.measureText(' ').width;
    }
}
if (currentLine.length > 0) lines.push(currentLine.join(' '));
return lines;
```
The single-space width measured by `ctx.measureText(' ')` under the ambient
font is the oracle `spaceW`. Lines are kept as word lists; the returned
strings of the source are their space-joined forms. -/

/-- Split on single spaces, keeping empty words, as `String.split(' ')`. -/
def splitSpaces : List Char → List (List Char)
  | [] => [[]]
  | c :: cs =>
    if c = ' ' then [] :: splitSpaces cs
    else
      match splitSpaces cs with
      | w :: ws => (c :: w) :: ws
      | [] => [[c]]

/-- The word-consuming loop of `splitTextIntoLines`, carrying the current line
and the running width accumulator. -/
def splitLoop (wordW : List Char → ℚ) (spaceW maxWidth : ℚ) :
    List (List Char) → List (List Char) → ℚ → List (List (List Char))
  | [], currentLine, _ => if currentLine.length > 0 then [currentLine] else []
  | word :: ws, currentLine, currentWidth =>
    let wordWidth := wordW word
    if maxWidth < currentWidth + wordWidth ∧ 0 < currentLine.length then
      currentLine :: splitLoop wordW spaceW maxWidth ws [word] wordWidth
    else
      splitLoop wordW spaceW maxWidth ws (currentLine ++ [word])
        (currentWidth + wordWidth + spaceW)

/-- The `splitTextIntoLines` method, producing each line as its list of words. -/
def splitTextIntoLines (charW : Char → ℚ) (isEmoji : Char → Bool) (spaceW : ℚ)
    (text : List Char) (maxWidth fontSize : ℚ) : List (List (List Char)) :=
  splitLoop (measureTextWidth charW isEmoji fontSize) spaceW maxWidth
    (splitSpaces text) [] 0

/-- Measured width of a laid-out line: the words under regular style plus one
inter-word space between adjacent words. -/
def lineWidth (wordW : List Char → ℚ) (spaceW : ℚ) : List (List Char) → ℚ
  | [] => 0
  | w :: ws => wordW w + (ws.map (fun v => spaceW + wordW v)).sum

/-! ## Line-count truncation (drawText, lines 538-544)

Source:
```
let lines = this.splitTextIntoLines(ctx, text, maxWidth, fontSize);
const maxLines = Math.floor((height - 2 * margin) / lineHeight);
if (lines.length > maxLines) {
    lines = lines.slice(0, maxLines);
    const last = lines[lines.length - 1];
    lines[lines.length - 1] = last.length > 3 ? last.slice(0, -3) + '...' : last;
}
```
When `maxLines` is zero and there are lines, `lines.slice(0, 0)` is empty and
`lines[-1]` is `undefined`, so reading `last.length` throws a TypeError; that
failure is modelled as `none`. -/

/-- The truncation step of `drawText` applied to the wrapped lines. -/
def drawTextTruncate (lines : List (List Char)) (maxLines : ℕ) :
    Option (List (List Char)) :=
  if maxLines < lines.length then
    match (lines.take maxLines).getLast? with
    | none => none
    | some last =>
      some ((lines.take maxLines).dropLast ++
        [if 3 < last.length then last.take (last.length - 3) ++ ['.', '.', '.']
         else last])
  else some lines

/-! ## Tiled darkening pass (applyPatternDarken, lines 448-469)

Source multiplies the R, G and B bytes of every pixel whose 2x2 tile is
marked 1 in the fixed pattern `[[1, 1], [1, 0]]` by the darkness factor,
which defaults to 0. The RGBA byte array `data` is modelled as a function
from flat index to value; index `(y * width + x) * 4 + channel` holds the
channel of pixel `(x, y)`. -/

/-- Fixed 2x2 boolean tile pattern of `applyPatternDarken`. -/
def patternGrid : List (List ℕ) := [[1, 1], [1, 0]]

/-- The `applyPatternDarken` method; the darkness factor defaults to 0 as in
the source. -/
def applyPatternDarken (width height : ℕ) (data : ℕ → ℚ) (darkness : ℚ := 0) :
    ℕ → ℚ :=
  fun idx =>
    let p := idx / 4
    let channel := idx % 4
    let x := p % width
    let y := p / width
    let px := (x / 2) % (patternGrid.getD 0 []).length
    let py := (y / 2) % patternGrid.length
    if y < height ∧ x < width ∧ channel < 3 ∧ (patternGrid.getD py []).getD px 0 = 1
    then data idx * darkness
    else data idx

/-- The darken pass exactly as invoked per variant by `createPostImages`
(line 760): no darkness argument, so the default 0 applies. -/
def createPostImagesDarken (width height : ℕ) (data : ℕ → ℚ) : ℕ → ℚ :=
  applyPatternDarken width height data

/-! ## Background selection and the batch loop
(getRandomBackgroundPath lines 433-439, createPostImages lines 739-779,
generateAllPosts lines 924-935)

The illustrations directory listing is the list `illustrations`; the uniform
random draw `Math.floor(Math.random() * files.length)` is modelled by an
arbitrary `rand` reduced modulo the candidate count. `createPostImages`
returns the four files it writes; its drawing steps always succeed, and its
only failure is the fatal empty-catalog throw of `getRandomBackgroundPath`.
`generateAllPosts` loops over the records with no try/catch, so the first
rejection stops the loop; it returns the outputs of the records processed
before the stop together with the propagated error, if any. -/

/-- Filter and draw of `getRandomBackgroundPath`: image files are those
matching the case-insensitive extension test `/\.(png|jpe?g)$/i`. -/
def hasImageExt (f : String) : Bool :=
  f.toLower.endsWith ".png" || f.toLower.endsWith ".jpg" || f.toLower.endsWith ".jpeg"

/-- The `getRandomBackgroundPath` method: throws on an empty catalog. -/
def getRandomBackgroundPath (illustrations : List String) (rand : ℕ) :
    Except String String :=
  let files := illustrations.filter hasImageExt
  if files.length = 0 then
    Except.error "[Background] ❌ No illustration images found."
  else Except.ok (files.getD (rand % files.length) "")

/-- Vulnerability record fields consumed by image generation. -/
structure Vuln where
  cve_id : String
  cvss_score : ℚ
  post_title : String
  post_content : String
deriving DecidableEq, Repr

/-- One output variant specification. -/
structure VariantSpec where
  name : String
  width : ℕ
  height : ℕ
deriving DecidableEq, Repr

/-- The four fixed output variants of `createPostImages`. -/
def postVariants : List VariantSpec :=
  [⟨"vertical-thumbnail.png", 1080, 1350⟩, ⟨"vertical-content.png", 1080, 1350⟩,
   ⟨"horizontal-thumbnail.png", 1920, 1080⟩, ⟨"horizontal-content.png", 1920, 1080⟩]

/-- Directory sanitization `cve_id.replace(/:/g, '_')`. -/
def sanitizeCveId (id : String) : String :=
  id.map (fun c => if c = ':' then '_' else c)

/-- The `createPostImages` method, observed through the files it writes: it
throws exactly when the background catalog holds no image, and otherwise
writes one file per variant under the sanitized record directory. -/
def createPostImages (illustrations : List String) (rand : ℕ) (vuln : Vuln) :
    Except String (List String) :=
  match getRandomBackgroundPath illustrations rand with
  | Except.error e => Except.error e
  | Except.ok _background =>
    Except.ok (postVariants.map (fun v => sanitizeCveId vuln.cve_id ++ "/" ++ v.name))

/-- The `generateAllPosts` batch loop: outputs of the records processed before
the loop stopped, and the propagated error when a record threw. -/
def generateAllPosts (illustrations : List String) (rand : ℕ) :
    List Vuln → List (List String) × Option String
  | [] => ([], none)
  | v :: vs =>
    match createPostImages illustrations rand v with
    | Except.error e => ([], some e)
    | Except.ok files =>
      let rest := generateAllPosts illustrations rand vs
      (files :: rest.1, rest.2)

/-! ## Helper theorems -/

/-- Unfolding the while-loop once, stated with a plain conditional. -/
theorem compressLoop_unfold (enc : ℕ → List ℕ) (maxSize : ℕ) (buffer : List ℕ)
    (quality : ℕ) :
    compressLoop enc maxSize buffer quality =
      if maxSize < buffer.length ∧ 40 < quality then
        compressLoop enc maxSize (enc quality) (quality - 10)
      else buffer := by
  rw [compressLoop]
  split <;> rfl

/-- On an over-budget input the loop returns the re-encode at the first of the
qualities 90, 80, 70, 60, 50 that fits the budget, or the quality-50 re-encode
when none fits. -/
theorem compressLoop_spec (enc : ℕ → List ℕ) (maxSize : ℕ) (input : List ℕ)
    (h : maxSize < input.length) :
    compressLoop enc maxSize input 90 =
      match compressQualities.find? (fun q => (enc q).length ≤ maxSize) with
      | some q => enc q
      | none => enc 50 := by
  rw [compressLoop_unfold, if_pos ⟨h, by norm_num⟩]
  norm_num
  by_cases h90 : (enc 90).length ≤ maxSize
  · rw [compressLoop_unfold, if_neg (by omega)]
    simp [compressQualities, List.find?_cons, h90]
  · rw [compressLoop_unfold, if_pos ⟨by omega, by norm_num⟩]
    norm_num
    by_cases h80 : (enc 80).length ≤ maxSize
    · rw [compressLoop_unfold, if_neg (by omega)]
      simp [compressQualities, List.find?_cons, h90, h80]
    · rw [compressLoop_unfold, if_pos ⟨by omega, by norm_num⟩]
      norm_num
      by_cases h70 : (enc 70).length ≤ maxSize
      · rw [compressLoop_unfold, if_neg (by omega)]
        simp [compressQualities, List.find?_cons, h90, h80, h70]
      · rw [compressLoop_unfold, if_pos ⟨by omega, by norm_num⟩]
        norm_num
        by_cases h60 : (enc 60).length ≤ maxSize
        · rw [compressLoop_unfold, if_neg (by omega)]
          simp [compressQualities, List.find?_cons, h90, h80, h70, h60]
        · rw [compressLoop_unfold, if_pos ⟨by omega, by norm_num⟩]
          norm_num
          rw [compressLoop_unfold, if_neg (by omega)]
          by_cases h50 : (enc 50).length ≤ maxSize <;>
            simp [compressQualities, List.find?_cons, h90, h80, h70, h60, h50]

/-- Full characterization of `compressImage`: unchanged when within budget,
otherwise the first fitting re-encode of the original image in quality order
90, 80, 70, 60, 50, or the last (quality-50) re-encode when none fits. -/
theorem compressImage_eq_spec (input : List ℕ) (maxSize : ℕ) (enc : ℕ → List ℕ) :
    compressImage input maxSize enc =
      if input.length ≤ maxSize then input
      else
        match compressQualities.find? (fun q => (enc q).length ≤ maxSize) with
        | some q => enc q
        | none => enc 50 := by
  unfold compressImage
  by_cases hin : input.length ≤ maxSize
  · rw [if_pos hin, if_pos hin]
  · rw [if_neg hin, if_neg hin]
    exact compressLoop_spec enc maxSize input (by omega)

/-- A list beginning with `k` asterisks has at least `k` characters. -/
theorem startsWithStars_length {k : ℕ} {s : List Char}
    (h : startsWithStars k s = true) : k ≤ s.length := by
  unfold startsWithStars at h
  have hlen : (s.take k).length = (stars k).length := by
    simp at h
    rw [h]
  simp [stars] at hlen
  omega

/-- The lazy close decomposes its input as content, closing stars, remainder. -/
theorem lazyClose_append {k : ℕ} :
    ∀ {s x r : List Char}, lazyClose k s = some (x, r) → s = x ++ stars k ++ r := by
  intro s
  induction s with
  | nil => intro x r h; simp [lazyClose] at h
  | cons c cs ih =>
    intro x r h
    unfold lazyClose at h
    by_cases hs : startsWithStars k (c :: cs) = true
    · rw [if_pos hs] at h
      obtain ⟨hx, hr⟩ := Prod.mk.injEq .. ▸ Option.some.injEq .. ▸ h
      have htake : (c :: cs).take k = stars k := by
        simpa [startsWithStars] using hs
      subst hx hr
      simpa [htake] using (List.take_append_drop k (c :: cs)).symm
    · rw [if_neg hs] at h
      by_cases hn : c = '\n'
      · simp [hn] at h
      · rw [if_neg hn] at h
        cases hrec : lazyClose k cs with
        | none => rw [hrec] at h; simp at h
        | some pr =>
          rw [hrec] at h
          obtain ⟨x0, r0⟩ := pr
          simp at h
          obtain ⟨hx, hr⟩ := h
          subst hx hr
          simpa using congrArg (c :: ·) (ih hrec)

/-- A matched delimited token together with the remainder reassembles the
input. -/
theorem tryDelim_append {k : ℕ} {s tok rest : List Char}
    (h : tryDelim k s = some (tok, rest)) : tok ++ rest = s := by
  unfold tryDelim at h
  by_cases hs : startsWithStars k s = true
  · rw [if_pos hs] at h
    cases hrec : lazyClose k (s.drop k) with
    | none => rw [hrec] at h; simp at h
    | some pr =>
      rw [hrec] at h
      obtain ⟨x, r⟩ := pr
      simp at h
      obtain ⟨htok, hrest⟩ := h
      subst htok hrest
      have hdk : s.drop k = x ++ stars k ++ r := lazyClose_append hrec
      have htake : s.take k = stars k := by simpa [startsWithStars] using hs
      conv_rhs => rw [← List.take_append_drop k s]
      rw [htake, hdk]
      simp [List.append_assoc]
  · rw [if_neg hs] at h; simp at h

/-- A successful delimited match strictly shortens the remainder. -/
theorem tryDelim_rest_length {k : ℕ} {s tok rest : List Char} (hk : 0 < k)
    (h : tryDelim k s = some (tok, rest)) : rest.length < s.length := by
  have happ := tryDelim_append h
  have htok : 0 < tok.length := by
    unfold tryDelim at h
    by_cases hs : startsWithStars k s = true
    · rw [if_pos hs] at h
      cases hrec : lazyClose k (s.drop k) with
      | none => rw [hrec] at h; simp at h
      | some pr =>
        rw [hrec] at h
        obtain ⟨x, r⟩ := pr
        simp at h
        obtain ⟨htok, _⟩ := h
        subst htok
        simp [stars]
        omega
    · rw [if_neg hs] at h; simp at h
  have := congrArg List.length happ
  simp at this
  omega

/-- The maximal asterisk-free run and its remainder reassemble the input. -/
theorem takeNonStar_append : ∀ s : List Char, (takeNonStar s).1 ++ (takeNonStar s).2 = s := by
  intro s
  induction s with
  | nil => simp [takeNonStar]
  | cons c cs ih =>
    by_cases hc : c = '*' <;> simp [takeNonStar, hc, ih]

/-- The remainder after the asterisk-free run never grows. -/
theorem takeNonStar_snd_le : ∀ s : List Char, (takeNonStar s).2.length ≤ s.length := by
  intro s
  induction s with
  | nil => simp [takeNonStar]
  | cons c cs ih =>
    by_cases hc : c = '*'
    · simp [takeNonStar, hc]
    · simp [takeNonStar, hc]
      omega

/-- Erasing asterisks from a star run leaves nothing. -/
theorem eraseStars_stars (k : ℕ) : eraseStars (stars k) = [] := by
  induction k with
  | zero => simp [eraseStars, stars]
  | succ n ih => simp [eraseStars, stars, List.replicate_succ] at ih ⊢

/-- Erasure distributes over append. -/
theorem eraseStars_append (a b : List Char) :
    eraseStars (a ++ b) = eraseStars a ++ eraseStars b := by
  simp [eraseStars, List.filter_append]

/-- Stripping `k` leading and trailing stars preserves the non-asterisk
characters. -/
theorem strip_eraseStars {k : ℕ} {t : List Char} (htake : t.take k = stars k)
    (hdrop : t.drop (t.length - k) = stars k) (hlen : 2 * k ≤ t.length) :
    eraseStars ((t.drop k).take (t.length - 2 * k)) = eraseStars t := by
  have hsplit : t = t.take k ++ ((t.drop k).take (t.length - 2 * k) ++
      (t.drop k).drop (t.length - 2 * k)) := by
    rw [List.take_append_drop, List.take_append_drop]
  have hdd : (t.drop k).drop (t.length - 2 * k) = t.drop (t.length - k) := by
    rw [List.drop_drop]
    congr 1
    omega
  conv_rhs => rw [hsplit]
  rw [hdd, htake, hdrop, eraseStars_append, eraseStars_append, eraseStars_stars]
  simp

/-- Classification only strips delimiter stars: non-asterisk characters are
preserved. -/
theorem classify_eraseStars (t : List Char) :
    eraseStars (classify t).text = eraseStars t := by
  unfold classify
  split_ifs with h1 h2 h3
  · obtain ⟨hlen, htake, hdrop, _⟩ := h1
    have : eraseStars ((t.drop 3).take (t.length - 2 * 3)) = eraseStars t :=
      strip_eraseStars htake hdrop (by omega)
    simpa using this
  · obtain ⟨hlen, htake, hdrop, _⟩ := h2
    have : eraseStars ((t.drop 2).take (t.length - 2 * 2)) = eraseStars t :=
      strip_eraseStars htake hdrop (by omega)
    simpa using this
  · obtain ⟨hlen, htake, hdrop, _⟩ := h3
    have : eraseStars ((t.drop 1).take (t.length - 2 * 1)) = eraseStars t :=
      strip_eraseStars htake hdrop (by omega)
    simpa using this
  · rfl

/-- Unfolding of text concatenation over a cons. -/
theorem concatText_cons (seg : MSeg) (rest : List MSeg) :
    concatText (seg :: rest) = seg.text ++ concatText rest := by
  simp [concatText]

/-- With sufficient fuel, the parser preserves every non-asterisk character of
the line, in order. -/
theorem parseMDFuel_eraseStars :
    ∀ (fuel : ℕ) (s : List Char), s.length ≤ fuel →
      eraseStars (concatText (parseMDFuel fuel s)) = eraseStars s := by
  intro fuel
  induction fuel with
  | zero =>
    intro s hs
    have : s = [] := List.eq_nil_of_length_eq_zero (by omega)
    subst this
    simp [parseMDFuel, concatText, eraseStars]
  | succ fuel ih =>
    intro s hs
    cases s with
    | nil => simp [parseMDFuel, concatText, eraseStars]
    | cons c cs =>
      cases h3 : tryDelim 3 (c :: cs) with
      | some pr =>
        obtain ⟨tok, rest⟩ := pr
        have hlt := tryDelim_rest_length (by norm_num) h3
        simp only [parseMDFuel, h3]
        rw [concatText_cons, eraseStars_append, classify_eraseStars,
          ih rest (by simp at hlt hs ⊢; omega), ← eraseStars_append, tryDelim_append h3]
      | none =>
        cases h2 : tryDelim 2 (c :: cs) with
        | some pr =>
          obtain ⟨tok, rest⟩ := pr
          have hlt := tryDelim_rest_length (by norm_num) h2
          simp only [parseMDFuel, h3, h2]
          rw [concatText_cons, eraseStars_append, classify_eraseStars,
            ih rest (by simp at hlt hs ⊢; omega), ← eraseStars_append, tryDelim_append h2]
        | none =>
          cases h1 : tryDelim 1 (c :: cs) with
          | some pr =>
            obtain ⟨tok, rest⟩ := pr
            have hlt := tryDelim_rest_length (by norm_num) h1
            simp only [parseMDFuel, h3, h2, h1]
            rw [concatText_cons, eraseStars_append, classify_eraseStars,
              ih rest (by simp at hlt hs ⊢; omega), ← eraseStars_append, tryDelim_append h1]
          | none =>
            by_cases hc : c = '*'
            · simp only [parseMDFuel, h3, h2, h1, if_pos hc]
              rw [ih cs (by simp at hs; omega)]
              simp [eraseStars, hc]
            · have hle := takeNonStar_snd_le cs
              simp only [parseMDFuel, h3, h2, h1, if_neg hc]
              rw [concatText_cons, eraseStars_append, classify_eraseStars,
                ih (takeNonStar (c :: cs)).2
                  (by simp [takeNonStar, hc] at hle hs ⊢; omega),
                ← eraseStars_append, takeNonStar_append]

/-- The parser preserves every non-asterisk character of the line, in order:
joining the span texts and erasing asterisks gives back the line with its
asterisks erased. -/
theorem parseMarkdown_eraseStars (line : List Char) :
    eraseStars (concatText (parseMarkdown line)) = eraseStars line :=
  parseMDFuel_eraseStars line.length line le_rfl

/-- Membership in a takeWhile run gives membership in the list and the
predicate. -/
theorem mem_takeWhile_mem {α : Type} (p : α → Bool) :
    ∀ (l : List α) (a : α), a ∈ l.takeWhile p → a ∈ l ∧ p a = true := by
  intro l
  induction l with
  | nil => intro a ha; simp [List.takeWhile] at ha
  | cons x xs ih =>
    intro a ha
    by_cases hp : p x = true
    · rw [List.takeWhile_cons_of_pos hp] at ha
      rcases List.mem_cons.mp ha with rfl | ha2
      · exact ⟨List.mem_cons_self .., hp⟩
      · obtain ⟨hmem, hpa⟩ := ih a ha2
        exact ⟨List.mem_cons_of_mem _ hmem, hpa⟩
    · rw [List.takeWhile_cons_of_neg (by simpa using hp)] at ha
      simp at ha

/-- Appending one word to a nonempty line adds one space and the word width. -/
theorem lineWidth_append (wordW : List Char → ℚ) (spaceW : ℚ) (w0 w : List Char)
    (rest : List (List Char)) :
    lineWidth wordW spaceW ((w0 :: rest) ++ [w]) =
      lineWidth wordW spaceW (w0 :: rest) + spaceW + wordW w := by
  simp [lineWidth, List.map_append, List.sum_append]
  ring

/-- The lines produced by the loop partition the remaining words after the
current line: no word is lost, duplicated, split or reordered. -/
theorem splitLoop_flatten (wordW : List Char → ℚ) (spaceW maxWidth : ℚ) :
    ∀ (ws cur : List (List Char)) (cw : ℚ),
      (splitLoop wordW spaceW maxWidth ws cur cw).flatten = cur ++ ws := by
  intro ws
  induction ws with
  | nil =>
    intro cur cw
    by_cases h : 0 < cur.length
    · simp [splitLoop, h]
    · have : cur = [] := by
        cases cur
        · rfl
        · simp at h
      simp [splitLoop, this]
  | cons word ws ih =>
    intro cur cw
    simp only [splitLoop]
    by_cases hbr : maxWidth < cw + wordW word ∧ 0 < cur.length
    · rw [if_pos hbr]
      simp [ih]
    · rw [if_neg hbr]
      simp [ih]

/-- Invariant of the loop after the first line break: the accumulator equals
the measured width of the current line, and every emitted line is nonempty
and, when it has at least two words, measures at most maxWidth plus one space
width. -/
theorem splitLoop_rest_bound (wordW : List Char → ℚ) (spaceW maxWidth : ℚ) :
    ∀ (ws cur : List (List Char)) (cw : ℚ),
      cur ≠ [] → cw = lineWidth wordW spaceW cur →
      (2 ≤ cur.length → lineWidth wordW spaceW cur ≤ maxWidth + spaceW) →
      ∀ l ∈ splitLoop wordW spaceW maxWidth ws cur cw,
        l ≠ [] ∧ (2 ≤ l.length → lineWidth wordW spaceW l ≤ maxWidth + spaceW) := by
  intro ws
  induction ws with
  | nil =>
    intro cur cw hne hcw hbound l hl
    rw [splitLoop, if_pos (List.length_pos.mpr hne)] at hl
    rcases List.mem_singleton.mp hl with rfl
    exact ⟨hne, hbound⟩
  | cons word ws ih =>
    intro cur cw hne hcw hbound l hl
    simp only [splitLoop] at hl
    by_cases hbr : maxWidth < cw + wordW word ∧ 0 < cur.length
    · rw [if_pos hbr] at hl
      rcases List.mem_cons.mp hl with rfl | hl2
      · exact ⟨hne, hbound⟩
      · exact ih [word] (wordW word) (by simp) (by simp [lineWidth]) (by simp) l hl2
    · rw [if_neg hbr] at hl
      have hfit : cw + wordW word ≤ maxWidth := by
        by_contra hx
        exact hbr ⟨by linarith [lt_of_not_le hx], List.length_pos.mpr hne⟩
      obtain ⟨w0, rest, rfl⟩ : ∃ w0 rest, cur = w0 :: rest := by
        cases cur with
        | nil => exact absurd rfl hne
        | cons a b => exact ⟨a, b, rfl⟩
      refine ih ((w0 :: rest) ++ [word]) (cw + wordW word + spaceW) (by simp) ?_ ?_ l hl
      · rw [lineWidth_append, hcw]
        ring
      · intro _
        rw [lineWidth_append, ← hcw]
        linarith

/-- Invariant of the loop while still filling the first line: the accumulator
equals the measured width of the current line plus one trailing space, the
head output line measures at most maxWidth when it has at least two words,
and every later line obeys the relaxed bound. -/
theorem splitLoop_head_bound (wordW : List Char → ℚ) (spaceW maxWidth : ℚ) :
    ∀ (ws cur : List (List Char)) (cw : ℚ),
      (cur = [] ∧ cw = 0) ∨
        (cur ≠ [] ∧ cw = lineWidth wordW spaceW cur + spaceW ∧
          (2 ≤ cur.length → lineWidth wordW spaceW cur ≤ maxWidth)) →
      ∀ l0 rest, splitLoop wordW spaceW maxWidth ws cur cw = l0 :: rest →
        (l0 ≠ [] ∧ (2 ≤ l0.length → lineWidth wordW spaceW l0 ≤ maxWidth)) ∧
        ∀ l ∈ rest, l ≠ [] ∧
          (2 ≤ l.length → lineWidth wordW spaceW l ≤ maxWidth + spaceW) := by
  intro ws
  induction ws with
  | nil =>
    intro cur cw hinv l0 rest heq
    rcases hinv with ⟨rfl, rfl⟩ | ⟨hne, hcw, hbound⟩
    · rw [splitLoop] at heq
      simp at heq
    · rw [splitLoop, if_pos (List.length_pos.mpr hne)] at heq
      obtain ⟨rfl, rfl⟩ := List.cons.injEq .. ▸ heq
      refine ⟨⟨hne, hbound⟩, ?_⟩
      intro l hl
      simp at hl
  | cons word ws ih =>
    intro cur cw hinv l0 rest heq
    simp only [splitLoop] at heq
    rcases hinv with ⟨rfl, rfl⟩ | ⟨hne, hcw, hbound⟩
    · rw [if_neg (by simp)] at heq
      refine ih [word] (0 + wordW word + spaceW) (Or.inr ⟨by simp, by simp [lineWidth], by simp⟩) l0 rest heq
    · by_cases hbr : maxWidth < cw + wordW word ∧ 0 < cur.length
      · rw [if_pos hbr] at heq
        obtain ⟨rfl, rfl⟩ := List.cons.injEq .. ▸ heq
        refine ⟨⟨hne, hbound⟩, ?_⟩
        intro l hl
        exact splitLoop_rest_bound wordW spaceW maxWidth ws [word] (wordW word)
          (by simp) (by simp [lineWidth]) (by simp) l hl
      · rw [if_neg hbr] at heq
        have hfit : cw + wordW word ≤ maxWidth := by
          by_contra hx
          exact hbr ⟨by linarith [lt_of_not_le hx], List.length_pos.mpr hne⟩
        obtain ⟨w0, rest0, rfl⟩ : ∃ w0 rest0, cur = w0 :: rest0 := by
          cases cur with
          | nil => exact absurd rfl hne
          | cons a b => exact ⟨a, b, rfl⟩
        refine ih ((w0 :: rest0) ++ [word]) (cw + wordW word + spaceW)
          (Or.inr ⟨by simp, ?_, ?_⟩) l0 rest heq
        · rw [lineWidth_append, hcw]
        · intro _
          rw [lineWidth_append, ← hcw]
          linarith

/-- New last line after truncation: first length-minus-3 characters plus an
ellipsis when longer than 3 characters, unchanged otherwise. -/
theorem drawTextTruncate_eq (lines : List (List Char)) (maxLines : ℕ)
    (h : 1 ≤ maxLines) :
    drawTextTruncate lines maxLines =
      some (if maxLines < lines.length then
        (lines.take maxLines).dropLast ++
          [(fun last => if 3 < last.length then
              last.take (last.length - 3) ++ ['.', '.', '.'] else last)
            ((lines.take maxLines).getLastD [])]
      else lines) := by
  unfold drawTextTruncate
  by_cases hlt : maxLines < lines.length
  · rw [if_pos hlt, if_pos hlt]
    have hne : lines.take maxLines ≠ [] := by
      have : (lines.take maxLines).length = maxLines := by
        rw [List.length_take]
        omega
      intro hx
      rw [hx] at this
      simp at this
      omega
    cases hlast : (lines.take maxLines).getLast? with
    | none => exact absurd (List.getLast?_eq_none_iff.mp hlast) hne
    | some last =>
      have hgd : (lines.take maxLines).getLastD [] = last := by
        rw [List.getLastD_eq_getLast?, hlast]
        rfl
      simp only [hgd]
  · rw [if_neg hlt, if_neg hlt]

/-! ## Claim theorems -/

/-- C1 counterexample: with an empty background catalog and two records, the
first record hits the fatal precondition and the batch loop aborts: the second
record is not processed (no outputs at all), contradicting the claim that
every other record continues independently. -/
theorem claim_C1_counterexample :
    (generateAllPosts [] 0 [⟨"CVE-A", 8, "tA", "cA"⟩, ⟨"CVE-B", 9, "tB", "cB"⟩]).1 = [] ∧
    (generateAllPosts [] 0 [⟨"CVE-A", 8, "tA", "cA"⟩, ⟨"CVE-B", 9, "tB", "cB"⟩]).2.isSome
      = true :=
  ⟨by decide, by decide⟩

/-- C1 amended: the fatal precondition of an empty background catalog aborts
the whole batch, not just the current record: `generateAllPosts` has no per
record catch, so the first throw propagates, no record produces output and the
error escapes the loop. -/
theorem claim_C1_amended (illustrations : List String) (rand : ℕ) (vulns : List Vuln)
    (hcat : illustrations.filter hasImageExt = []) (hne : vulns ≠ []) :
    (generateAllPosts illustrations rand vulns).1 = [] ∧
    (generateAllPosts illustrations rand vulns).2 =
      some "[Background] ❌ No illustration images found." := by
  cases vulns with
  | nil => exact absurd rfl hne
  | cons v vs =>
    have herr : createPostImages illustrations rand v =
        Except.error "[Background] ❌ No illustration images found." := by
      simp [createPostImages, getRandomBackgroundPath, hcat]
    simp [generateAllPosts, herr]

/-- C1 witness: the amended statement applied to an empty catalog and one
concrete record. -/
theorem claim_C1_witness :
    (([] : List String).filter hasImageExt = []) ∧
    (([⟨"CVE-2099-0001", 97/10, "Example Flaw", "c"⟩] : List Vuln) ≠ []) ∧
    (generateAllPosts [] 7 [⟨"CVE-2099-0001", 97/10, "Example Flaw", "c"⟩]).1 = [] := by
  refine ⟨rfl, by simp, ?_⟩
  exact (claim_C1_amended [] 7 [⟨"CVE-2099-0001", 97/10, "Example Flaw", "c"⟩] rfl
    (by simp)).1

/-- C2 counterexample: on the line with a lone unmatched asterisk the parser
drops the asterisk entirely — it appears in no output span — contradicting the
claim that each unmatched asterisk appears verbatim in some span. -/
theorem claim_C2_counterexample :
    parseMarkdown "a * b".toList = [⟨"a ".toList, "regular"⟩, ⟨" b".toList, "regular"⟩] ∧
    (concatText (parseMarkdown "a * b".toList)).contains '*' = false :=
  ⟨by decide, by decide⟩

/-- C2 amended: parsing is total (never an error) and degrades malformed
markup, but an unmatched asterisk is dropped from the output rather than kept
verbatim: every non-asterisk character of the line is preserved in order in
the spans, and on the example line the surrounding text appears in regular
spans with the lone asterisk gone. -/
theorem claim_C2_amended :
    (∀ line : List Char, eraseStars (concatText (parseMarkdown line)) = eraseStars line) ∧
    parseMarkdown "a * b".toList = [⟨"a ".toList, "regular"⟩, ⟨" b".toList, "regular"⟩] :=
  ⟨parseMarkdown_eraseStars, by decide⟩

/-- C3 counterexample: a negative severity score selects the blue theme, not
the red theme claimed for out-of-domain scores. -/
theorem claim_C3_counterexample :
    themeColorOf (-1) = "blue" ∧ ¬ themeColorOf (-1) = "red" := by
  have h : themeColorOf (-1) = "blue" := by
    rw [themeColorOf, if_pos (by norm_num)]
  exact ⟨h, by rw [h]; decide⟩

/-- C3 amended: out-of-domain scores split by side: every score above 10 falls
through the comparison chain to red, while every negative score satisfies the
first comparison and yields blue. -/
theorem claim_C3_amended (s : ℚ) :
    (10 < s → themeColorOf s = "red") ∧ (s < 0 → themeColorOf s = "blue") := by
  constructor
  · intro h
    rw [themeColorOf, if_neg (by linarith), if_neg (by linarith)]
  · intro h
    rw [themeColorOf, if_pos (by linarith)]

/-- C3 witness: the amended statement applied at scores 11 and -1. -/
theorem claim_C3_witness :
    (10 < (11 : ℚ)) ∧ themeColorOf 11 = "red" ∧
    ((-1 : ℚ) < 0) ∧ themeColorOf (-1) = "blue" :=
  ⟨by norm_num, (claim_C3_amended 11).1 (by norm_num),
   by norm_num, (claim_C3_amended (-1)).2 (by norm_num)⟩

/-- C4 counterexample: with unit character widths and unit space width, text
"a b c" wrapped at max width 2 produces the two-word line "b c" of measured
width 3, exceeding the max width: the width accumulator is reset without the
trailing space after a line break, so a non-first line can overflow even with
more than one word. -/
theorem claim_C4_counterexample :
    splitTextIntoLines (fun _ => 1) (fun _ => false) 1 "a b c".toList 2 40 =
      [[['a']], [['b'], ['c']]] ∧
    ([['b'], ['c']] : List (List Char)).length = 2 ∧
    lineWidth (measureTextWidth (fun _ => 1) (fun _ => false) 40) 1 [['b'], ['c']] = 3 ∧
    (2 : ℚ) < 3 := by
  refine ⟨?_, by norm_num, ?_, by norm_num⟩
  · norm_num [splitTextIntoLines, splitSpaces, splitLoop, measureTextWidth, String.toList]
  · norm_num [lineWidth, measureTextWidth]

/-- C4 amended: the wrapper never splits or reorders words (the produced lines
flatten back to the word list); the first produced line respects the max width
whenever it has at least two words; every later line with at least two words
respects the max width relaxed by one space width (the accumulator loses one
space at each line break); single-word lines may overflow arbitrarily. -/
theorem claim_C4_amended (charW : Char → ℚ) (isEmoji : Char → Bool) (spaceW : ℚ)
    (text : List Char) (maxWidth fontSize : ℚ) :
    (splitTextIntoLines charW isEmoji spaceW text maxWidth fontSize).flatten =
      splitSpaces text ∧
    ∀ l0 rest,
      splitTextIntoLines charW isEmoji spaceW text maxWidth fontSize = l0 :: rest →
      (2 ≤ l0.length →
        lineWidth (measureTextWidth charW isEmoji fontSize) spaceW l0 ≤ maxWidth) ∧
      ∀ l ∈ rest, l ≠ [] ∧
        (2 ≤ l.length →
          lineWidth (measureTextWidth charW isEmoji fontSize) spaceW l ≤ maxWidth + spaceW) := by
  constructor
  · exact splitLoop_flatten _ _ _ _ _ _
  · intro l0 rest heq
    have h := splitLoop_head_bound (measureTextWidth charW isEmoji fontSize) spaceW
      maxWidth (splitSpaces text) [] 0 (Or.inl ⟨rfl, rfl⟩) l0 rest heq
    exact ⟨h.1.2, h.2⟩

/-- C4 witness: the amended statement applied to the concrete wrap of "a b c"
at max width 2 with unit metrics; the second line measures within the relaxed
bound. -/
theorem claim_C4_witness :
    lineWidth (measureTextWidth (fun _ => 1) (fun _ => false) 40) 1 [['b'], ['c']]
      ≤ 2 + 1 := by
  have h := (claim_C4_amended (fun _ => 1) (fun _ => false) 1 "a b c".toList 2 40).2
    [['a']] [[['b'], ['c']]]
    (by norm_num [splitTextIntoLines, splitSpaces, splitLoop, measureTextWidth,
      String.toList])
  exact ((h.2 [['b'], ['c']] (by simp)).2 (by norm_num))

/-- C5 counterexample: on the line with single asterisks nested inside a
triple-asterisk span, the concatenated span text keeps the interior asterisk,
so it is not the original string with the delimiter (asterisk) characters
removed: the lengths 3 and 2 differ. -/
theorem claim_C5_counterexample :
    parseMarkdown "***a*b***".toList = [⟨"a*b".toList, "bolditalic"⟩] ∧
    concatText (parseMarkdown "***a*b***".toList) = "a*b".toList ∧
    eraseStars "***a*b***".toList = "ab".toList ∧
    ("a*b".toList).length = 3 ∧ ("ab".toList).length = 2 :=
  ⟨by decide, by decide, by decide, by decide, by decide⟩

/-- C5 amended: concatenating the span texts yields the original line with
some asterisks removed — every non-asterisk character is preserved verbatim
and in order — and on the well-formed example the concatenation equals the
original with its delimiters stripped. -/
theorem claim_C5_amended :
    (∀ line : List Char, eraseStars (concatText (parseMarkdown line)) = eraseStars line) ∧
    parseMarkdown "**CVE** found".toList =
      [⟨"CVE".toList, "bold"⟩, ⟨" found".toList, "regular"⟩] ∧
    concatText (parseMarkdown "**CVE** found".toList) = "CVE found".toList :=
  ⟨parseMarkdown_eraseStars, by decide, by decide⟩

/-- C6 counterexample: with a zero line budget and one nonempty wrapped line
the truncation code reads the length of an undefined last element and throws
(modelled as none) instead of returning at most zero lines. -/
theorem claim_C6_counterexample :
    drawTextTruncate [['a', 'b', 'c', 'd']] 0 = none := by decide

/-- C6 amended: for every positive maxLines bound the truncation keeps exactly
the first maxLines lines when the wrapped lines exceed the bound, replacing
the new last line by its first length-minus-3 characters plus an ellipsis
when longer than 3 characters and leaving it unchanged otherwise, and the
returned line count never exceeds maxLines; the zero bound with nonempty
input instead throws. -/
theorem claim_C6_amended (lines : List (List Char)) (maxLines : ℕ)
    (h : 1 ≤ maxLines) :
    drawTextTruncate lines maxLines =
      some (if maxLines < lines.length then
        (lines.take maxLines).dropLast ++
          [(fun last => if 3 < last.length then
              last.take (last.length - 3) ++ ['.', '.', '.'] else last)
            ((lines.take maxLines).getLastD [])]
      else lines) ∧
    ∀ r, drawTextTruncate lines maxLines = some r → r.length ≤ maxLines := by
  refine ⟨drawTextTruncate_eq lines maxLines h, ?_⟩
  intro r hr
  rw [drawTextTruncate_eq lines maxLines h] at hr
  have heq := Option.some.inj hr
  by_cases hlt : maxLines < lines.length
  · rw [if_pos hlt] at heq
    rw [← heq]
    simp [List.length_dropLast, List.length_take]
    omega
  · rw [if_neg hlt] at heq
    rw [← heq]
    omega

/-- C6 witness: the amended statement applied to three wrapped lines and a
bound of two; the second line "bcde" is truncated to "b" plus an ellipsis. -/
theorem claim_C6_witness :
    (1 ≤ 2) ∧ drawTextTruncate [['a'], ['b', 'c', 'd', 'e'], ['f']] 2 =
      some [['a'], ['b', '.', '.', '.']] := by
  refine ⟨by norm_num, ?_⟩
  have h := (claim_C6_amended [['a'], ['b', 'c', 'd', 'e'], ['f']] 2 (by norm_num)).1
  simpa using h

/-- C7: the compressor terminates and is fully characterized: an input within
the byte ceiling is returned unchanged with no re-encode; an over-budget input
yields the re-encode of the original image at the first of the qualities
90, 80, 70, 60, 50 (in that order, at most 5 attempts) whose output fits, or
the last produced (quality 50) buffer when none fits; the function is total,
so it never throws. -/
theorem claim_C7_theorem (input : List ℕ) (maxSize : ℕ) (enc : ℕ → List ℕ) :
    (input.length ≤ maxSize → compressImage input maxSize enc = input) ∧
    (maxSize < input.length →
      compressImage input maxSize enc =
        match compressQualities.find? (fun q => (enc q).length ≤ maxSize) with
        | some q => enc q
        | none => enc 50) := by
  constructor
  · intro h
    rw [compressImage, if_pos h]
  · intro h
    rw [compressImage_eq_spec, if_neg (by omega)]

/-- C7 witness: the characterization applied to a concrete over-budget input
whose first re-encode fits, and to a concrete fitting input. -/
theorem claim_C7_witness :
    (1 < ([0, 0] : List ℕ).length) ∧
    compressImage [0, 0] 1 (fun q => [q]) = [90] ∧
    (([5] : List ℕ).length ≤ 1) ∧
    compressImage [5] 1 (fun q => [q]) = [5] := by
  refine ⟨by decide, ?_, by decide, (claim_C7_theorem [5] 1 (fun q => [q])).1 (by decide)⟩
  have h := (claim_C7_theorem [0, 0] 1 (fun q => [q])).2 (by decide)
  simpa [compressQualities] using h

/-- C8 counterexample: an encoder whose outputs are all larger than the input
makes the compressor return a buffer of 150 bytes for a 100-byte input — the
result is larger than the input, and not the smallest buffer achieved, since
the quality-90 attempt produced only 110 bytes. -/
theorem claim_C8_counterexample :
    (List.replicate 100 0 : List ℕ).length = 100 ∧
    (compressImage (List.replicate 100 0) 50
      (fun q => List.replicate (200 - q) 0)).length = 150 ∧
    100 < 150 ∧
    ((fun q => List.replicate (200 - q) (0 : ℕ)) 90).length = 110 ∧ 110 < 150 := by
  refine ⟨by simp, ?_, by norm_num, by simp, by norm_num⟩
  rw [compressImage_eq_spec, if_neg (by simp)]
  norm_num [compressQualities, List.find?]

/-- C8 amended: when every attempted re-encode is no larger than the input and
re-encode sizes are monotone in quality, the returned buffer is never larger
than the input and is the smallest buffer achieved across the attempts made,
even when still over budget. -/
theorem claim_C8_amended (input : List ℕ) (maxSize : ℕ) (enc : ℕ → List ℕ)
    (hb : ∀ q ∈ compressQualities, (enc q).length ≤ input.length)
    (hm : ∀ q r, q ∈ compressQualities → r ∈ compressQualities → q ≤ r →
      (enc q).length ≤ (enc r).length) :
    (compressImage input maxSize enc).length ≤ input.length ∧
    (maxSize < input.length → ∀ q ∈ attemptedQualities maxSize enc,
      (compressImage input maxSize enc).length ≤ (enc q).length) := by
  rw [compressImage_eq_spec]
  by_cases hin : input.length ≤ maxSize
  · rw [if_pos hin]
    exact ⟨le_rfl, fun hx => absurd hx (by omega)⟩
  · rw [if_neg hin]
    cases hf : compressQualities.find? (fun q => (enc q).length ≤ maxSize) with
    | some qstar =>
      have hqmem : qstar ∈ compressQualities := List.mem_of_find?_eq_some hf
      refine ⟨hb qstar hqmem, ?_⟩
      intro _ q hq
      rw [attemptedQualities, hf] at hq
      obtain ⟨hqmem2, hple⟩ := mem_takeWhile_mem _ _ _ hq
      exact hm qstar q hqmem hqmem2 (by simpa using hple)
    | none =>
      have h50 : (50 : ℕ) ∈ compressQualities := by norm_num [compressQualities]
      refine ⟨hb 50 h50, ?_⟩
      intro _ q hq
      rw [attemptedQualities, hf] at hq
      have h50le : 50 ≤ q := by
        have hcases : q = 90 ∨ q = 80 ∨ q = 70 ∨ q = 60 ∨ q = 50 := by
          simpa [compressQualities] using hq
        rcases hcases with rfl | rfl | rfl | rfl | rfl <;> norm_num
      exact hm 50 q h50 hq h50le

/-- C8 witness: the amended statement applied to a well-behaved encoder whose
output at quality q holds q bytes; the result fits the input bound and is no
larger than the first attempt. -/
theorem claim_C8_witness :
    (compressImage [0, 0] 1 (fun q => [q])).length ≤ ([0, 0] : List ℕ).length ∧
    (compressImage [0, 0] 1 (fun q => [q])).length ≤ ((fun q => [q]) 90).length := by
  have h := claim_C8_amended [0, 0] 1 (fun q => [q])
    (by intro q hq; simp)
    (by intro q r _ _ _; simp)
  exact ⟨h.1, h.2 (by norm_num) 90 (by decide)⟩

/-- C9: on the documented domain the theme thresholds hold — blue for scores
at most 9, orange above 9 up to 9.5, red above 9.5 — theme selection is a
function of the score alone, and all six concrete spec values evaluate as
specified. -/
theorem claim_C9_theorem :
    (∀ s : ℚ, 0 ≤ s → s ≤ 10 →
      ((s ≤ 9 → themeColorOf s = "blue") ∧
       (9 < s → s ≤ 9.5 → themeColorOf s = "orange") ∧
       (9.5 < s → themeColorOf s = "red"))) ∧
    (∀ s t : ℚ, s = t → themeColorOf s = themeColorOf t) ∧
    themeColorOf 8 = "blue" ∧ themeColorOf 9 = "blue" ∧
    themeColorOf 9.3 = "orange" ∧ themeColorOf 9.5 = "orange" ∧
    themeColorOf 9.6 = "red" ∧ themeColorOf 10 = "red" := by
  refine ⟨?_, fun s t h => by rw [h], ?_, ?_, ?_, ?_, ?_, ?_⟩
  · intro s _ _
    refine ⟨fun h => by rw [themeColorOf, if_pos h], fun h1 h2 => ?_, fun h => ?_⟩
    · rw [themeColorOf, if_neg (by linarith), if_pos h2]
    · rw [themeColorOf, if_neg (by linarith), if_neg (by linarith)]
  · rw [themeColorOf, if_pos (by norm_num)]
  · rw [themeColorOf, if_pos (by norm_num)]
  · rw [themeColorOf, if_neg (by norm_num), if_pos (by norm_num)]
  · rw [themeColorOf, if_neg (by norm_num), if_pos (by norm_num)]
  · rw [themeColorOf, if_neg (by norm_num), if_neg (by norm_num)]
  · rw [themeColorOf, if_neg (by norm_num), if_neg (by norm_num)]

/-- C9 witness: the threshold clause applied at the in-domain score 9.3. -/
theorem claim_C9_witness :
    (0 ≤ (93/10 : ℚ)) ∧ ((93/10 : ℚ) ≤ 10) ∧ (9 < (93/10 : ℚ)) ∧
    ((93/10 : ℚ) ≤ 9.5) ∧ themeColorOf (93/10) = "orange" :=
  ⟨by norm_num, by norm_num, by norm_num, by norm_num,
    (claim_C9_theorem.1 (93/10) (by norm_num) (by norm_num)).2.1
      (by norm_num) (by norm_num)⟩

/-- C10: the per-variant darken pass is invoked with no darkness argument, so
the default 0 applies: every R, G or B channel of a pixel in one of the three
darkened tiles of each 2x2 tile block (all tiles except those with both tile
coordinates odd) is multiplied by 0, hence set fully to black. -/
theorem claim_C10_theorem (width height : ℕ) (data : ℕ → ℚ) (x y c : ℕ)
    (hx : x < width) (hy : y < height) (hc : c < 3)
    (hsel : ¬((x / 2) % 2 = 1 ∧ (y / 2) % 2 = 1)) :
    createPostImagesDarken width height data ((y * width + x) * 4 + c) = 0 := by
  have hw : 0 < width := by omega
  have h4 : ((y * width + x) * 4 + c) / 4 = y * width + x := by omega
  have hc4 : ((y * width + x) * 4 + c) % 4 = c := by omega
  have hxm : (y * width + x) % width = x := by
    rw [Nat.add_comm, Nat.add_mul_mod_self_right, Nat.mod_eq_of_lt hx]
  have hym : (y * width + x) / width = y := by
    rw [Nat.add_comm, Nat.add_mul_div_right _ _ hw, Nat.div_eq_of_lt hx]
    omega
  have hpx := Nat.mod_two_eq_zero_or_one (x / 2)
  have hpy := Nat.mod_two_eq_zero_or_one (y / 2)
  unfold createPostImagesDarken applyPatternDarken
  simp only [h4, hc4, hxm, hym, patternGrid]
  rcases hpx with hpx | hpx <;> rcases hpy with hpy | hpy
  · simp [hpx, hpy, hy, hx, hc]
  · simp [hpx, hpy, hy, hx, hc]
  · simp [hpx, hpy, hy, hx, hc]
  · exact absurd ⟨hpx, hpy⟩ hsel

/-- C10 witness: the darken theorem applied at pixel (0, 0), channel 0, of a
2 by 2 canvas of constant value 100. -/
theorem claim_C10_witness :
    (0 < 2) ∧ (0 < 3) ∧
    createPostImagesDarken 2 2 (fun _ => (100 : ℚ)) ((0 * 2 + 0) * 4 + 0) = 0 :=
  ⟨by norm_num, by norm_num,
    claim_C10_theorem 2 2 (fun _ => (100 : ℚ)) 0 0 0 (by decide) (by decide)
      (by decide) (by decide)⟩

end BlackWire
